import Mathlib

/-!
Shallow embedding of the core of `gct` (`src/main.go`): a terminal
cryptocurrency tracker.  The embedded parts are

* the OHLC aggregation step `ProcessMessage` (and its iteration `ingest`,
  the spec's `Ingest`),
* the read-loop state transition of `Connect` (failure counter, backoff
  sleep, handshake-artifact skipping),
* the bound/scale computations of `DrawCandles` and `DrawVolume`.

Prices are modelled as rationals (the Go code uses `float64`; every
operation the claims are about — `min`, `max`, comparisons, and the
exactness claims about the column mapping — is exact on the values
involved).  Timestamps are natural numbers; `time.Time.Truncate` is the
flooring `truncate` below.  Machine-integer overflow is irrelevant to
every claim (counters only ever grow by one per processed event), so
counters are naturals.
-/

set_option maxHeartbeats 1000000

namespace Gct

/-- `math.MaxFloat32`, the sentinel the Go code uses to seed a fresh
bucket's `Min` (and the initial `lowerBound` of `DrawCandles`), as an
exact rational: `(2^24 - 1) * 2^104`. -/
def maxFloat32 : ℚ := (2 ^ 24 - 1) * 2 ^ 104

/-- `t.Truncate(d)` of Go for a natural timestamp `t` and window `d`:
rounds `t` down to a multiple of `d`; Go returns `t` unchanged when
`d <= 0`. -/
def truncate (t d : ℕ) : ℕ := if d = 0 then t else t / d * d

/-- The fields of `gdax.Message` that the core reads: `Side`, `Price`,
and the (already converted) `Time`. -/
structure Message where
  side : String
  price : ℚ
  time : ℕ
deriving DecidableEq

/-- The `Bucket` struct of `src/main.go`. -/
structure Bucket where
  Open : ℚ
  Close : ℚ
  Max : ℚ
  Min : ℚ
  Trades : ℕ
  Start : ℕ
  Duration : ℕ
deriving DecidableEq

/-- Apply `f` to the last element of a list, if any: the functional
rendering of the Go code's in-place mutation of `(*buckets)[len-1]`
through the `bucket` pointer. -/
def updateLast {α : Type} (f : α → α) : List α → List α
  | [] => []
  | [b] => [f b]
  | b :: b2 :: bs => b :: updateLast f (b2 :: bs)

/-- The bucket literal appended by `ProcessMessage` when a new window
starts: `Open = Close = price`, `Min = math.MaxFloat32`, `Max = 0`,
`Trades` zero-valued. -/
def newBucket (price : ℚ) (t d : ℕ) : Bucket :=
  { Open := price, Close := price, Max := 0, Min := maxFloat32,
    Trades := 0, Start := t, Duration := d }

/-- The assignment `bucket.Close = message.Price` of `ProcessMessage`. -/
def setClose (p : ℚ) (b : Bucket) : Bucket := { b with Close := p }

/-- The unconditional tail of `ProcessMessage`: `bucket.Trades++`,
`bucket.Max = max(bucket.Max, price)`, `bucket.Min = min(bucket.Min,
price)`. -/
def touchBucket (p : ℚ) (b : Bucket) : Bucket :=
  { b with Trades := b.Trades + 1, Max := max b.Max p, Min := min b.Min p }

/-- `ProcessMessage` of `src/main.go` (lines 261–296), with the candle
size passed explicitly instead of read from the global flag.  Appends
the message to the trade history, routes it to the last bucket if that
bucket's `Start` equals the truncated timestamp, otherwise appends a
fresh bucket, then updates `Trades`/`Max`/`Min` of the last bucket. -/
def processMessage (d : ℕ) (message : Message) (trades : List Message)
    (buckets : List Bucket) : List Message × List Bucket :=
  let t := truncate message.time d
  let bs0 := if buckets = [] then buckets ++ [newBucket message.price t d] else buckets
  let bs1 :=
    match bs0.getLast? with
    | some b =>
      if b.Start = t then updateLast (setClose message.price) bs0
      else bs0 ++ [newBucket message.price t d]
    | none => bs0
  (trades ++ [message], updateLast (touchBucket message.price) bs1)

/-- The spec's `Ingest`, iterated from the empty initial state of `main`
(`trades := []`, `buckets := []`): fold `processMessage` over a message
sequence. -/
def ingest (d : ℕ) (messages : List Message) : List Message × List Bucket :=
  messages.foldl (fun st m => processMessage d m st.1 st.2) ([], [])

/-! ### StreamConnector read-loop -/

/-- One observable event of the `Connect` read loop: a read failure, or
a successful read of a message. -/
inductive ReadEvent where
  | failure
  | success (m : Message)
deriving DecidableEq

/-- One iteration of the read loop of `Connect` (`src/main.go` lines
93–111) as a transition on the failure counter `connectionErrCount`.
Returns the new counter, the backoff sleep in seconds performed before
reconnecting (`none` when no reconnect happens), and the message pushed
to the output channel (`none` when nothing is emitted).

On a read failure the counter is incremented and the loop sleeps
`counter²` seconds, then reconnects.  On a successful read the message
is first checked for an empty `Side` (handshake artifact): such a
message is skipped by `continue` *before* the counter reset, so the
counter is left unchanged; otherwise the counter is reset to 0 and the
message is emitted. -/
def connectStep (c : ℕ) (e : ReadEvent) : ℕ × Option ℕ × Option Message :=
  match e with
  | ReadEvent.failure => (c + 1, some ((c + 1) * (c + 1)), none)
  | ReadEvent.success m =>
      if m.side.length = 0 then (c, none, none)
      else (0, none, some m)

/-- The failure counter after `n` consecutive read failures starting
from a freshly reset counter. -/
def failCounter : ℕ → ℕ
  | 0 => 0
  | n + 1 => (connectStep (failCounter n) ReadEvent.failure).1

/-! ### Renderer bound computations -/

/-- The `lowerBound`/`upperBound` fold of `DrawCandles` (lines 195–199):
seeded with `(math.MaxFloat32, 0)` and folded with `min`/`max` over
**all** buckets of the slice. -/
def candleRawBounds (buckets : List Bucket) : ℚ × ℚ :=
  buckets.foldl (fun p b => (min p.1 b.Min, max p.2 b.Max)) (maxFloat32, 0)

/-- The padding step of `DrawCandles` (lines 200–203): if the spread is
under 100, widen both bounds by 50. -/
def padBounds (p : ℚ × ℚ) : ℚ × ℚ :=
  if p.2 - p.1 < 100 then (p.1 - 50, p.2 + 50) else p

/-- The bounds `DrawCandles` actually scales with: raw fold then
padding. -/
def candleBounds (buckets : List Bucket) : ℚ × ℚ :=
  padBounds (candleRawBounds buckets)

/-- The column mapping of `DrawCandles` (lines 221–231): value `v` is
sent to `1 + (v - lowerBound) / priceSpread * (w - 2)` where
`priceSpread = upperBound - lowerBound`. -/
def column (lowerBound upperBound w v : ℚ) : ℚ :=
  1 + (v - lowerBound) / (upperBound - lowerBound) * (w - 2)

/-- The `volumeUpperBound` fold of `DrawVolume` (lines 240–243): seeded
with 0 and folded with `max` over the trade counts of **all** buckets. -/
def volumeMax (buckets : List Bucket) : ℚ :=
  buckets.foldl (fun a b => max a (b.Trades : ℚ)) 0

/-- The buckets that actually fit in a panel of height `h`: the drawing
loops run `line` from 1 while `line < h`, walking the bucket slice from
its end, so the last `h - 1` buckets are visible. -/
def visibleBuckets (h : ℕ) (buckets : List Bucket) : List Bucket :=
  buckets.drop (buckets.length - (h - 1))

/-- The columns of the bar `DrawVolume` draws for one bucket row
(lines 253–257): cells `1 .. ⌊Trades / volumeMax * (w - 1)⌋`. -/
def volumeBarCols (w : ℕ) (vmax : ℚ) (count : ℕ) : List ℕ :=
  List.range' 1 (⌊(count : ℚ) / vmax * ((w : ℚ) - 1)⌋.toNat)

/-- The bar rows `DrawVolume` renders for a panel of width `w` and
height `h`: one row per visible bucket, newest first, each scaled by the
`volumeMax` of the whole bucket slice. -/
def drawVolumeRows (w h : ℕ) (buckets : List Bucket) : List (List ℕ) :=
  ((visibleBuckets h buckets).reverse).map
    (fun b => volumeBarCols w (volumeMax buckets) b.Trades)

/-- The least `Min` field among a list of values; the head seeds the
fold, so this is the genuine minimum of a non-empty list (0 on the empty
list). -/
def runMin : List ℚ → ℚ
  | [] => 0
  | p :: ps => ps.foldl min p

/-- The genuine maximum of a non-empty list of values (0 on the empty
list). -/
def runMax : List ℚ → ℚ
  | [] => 0
  | p :: ps => ps.foldl max p

/-- Formalisation of the spec sentence «compute `lowerBound =
min(bucket.min)` … over all *visible* buckets»: the minimum taken over
the visible buckets only. -/
def specVisibleLowerBound (h : ℕ) (buckets : List Bucket) : ℚ :=
  runMin ((visibleBuckets h buckets).map Bucket.Min)

/-- Formalisation of the spec sentence «`upperBound = max(bucket.max)`
over all *visible* buckets». -/
def specVisibleUpperBound (h : ℕ) (buckets : List Bucket) : ℚ :=
  runMax ((visibleBuckets h buckets).map Bucket.Max)

/-- Formalisation of the spec sentence «compute `volumeMax =
max(bucket.tradeCount)` over visible buckets». -/
def specVisibleVolumeMax (h : ℕ) (buckets : List Bucket) : ℚ :=
  runMax ((visibleBuckets h buckets).map (fun b => (b.Trades : ℚ)))

/-- Two concrete buckets exercising the renderer bounds: the older one
is much wider (min 0, max 1000, 5 trades) than the newer one (min 400,
max 600, 2 trades); in a panel of height 2 only the newer one is
visible. -/
def twoBuckets : List Bucket :=
  [{ Open := 0, Close := 0, Max := 1000, Min := 0, Trades := 5, Start := 0, Duration := 60 },
   { Open := 0, Close := 0, Max := 600, Min := 400, Trades := 2, Start := 60, Duration := 60 }]

/-! ### The run decomposition of the aggregator

`processMessage` opens a new bucket exactly when the truncated timestamp
of the incoming message differs from the `Start` of the last bucket, and
the `Start` of the last bucket is always the truncated timestamp of the
previous message.  The messages routed into one bucket are therefore a
maximal block of consecutive messages sharing one truncated timestamp.
`runs` computes that block decomposition; the master lemma below proves
that the bucket list is exactly the image of `runs` under `mkBucket`. -/

/-- Add one message to the run decomposition: extend the last run when
the key (truncated timestamp) matches, otherwise start a new run. -/
def addRun (d : ℕ) (m : Message) (rs : List (ℕ × List Message)) :
    List (ℕ × List Message) :=
  let k := truncate m.time d
  match rs.getLast? with
  | none => [(k, [m])]
  | some r =>
      if r.1 = k then updateLast (fun p => (p.1, p.2 ++ [m])) rs
      else rs ++ [(k, [m])]

/-- The run decomposition of a message sequence: consecutive messages
with equal truncated timestamps grouped together, oldest first. -/
def runs (d : ℕ) (messages : List Message) : List (ℕ × List Message) :=
  messages.foldl (fun a m => addRun d m a) []

/-- The bucket the code builds from one run of routed messages: open and
close are the first and last routed price, min/max are the sentinel-seeded
folds of the routed prices, the trade count is the run length. -/
def mkBucket (d : ℕ) (r : ℕ × List Message) : Bucket :=
  { Open := (r.2.head?.map Message.price).getD 0,
    Close := (r.2.getLast?.map Message.price).getD 0,
    Max := r.2.foldl (fun a m => max a m.price) 0,
    Min := r.2.foldl (fun a m => min a m.price) maxFloat32,
    Trades := r.2.length,
    Start := r.1,
    Duration := d }

/-- The bucket the spec describes for one run of routed messages: the
same as `mkBucket` except that min/max are the genuine running
minimum/maximum of the routed prices, with no sentinel. -/
def specBucket (d : ℕ) (r : ℕ × List Message) : Bucket :=
  { Open := (r.2.head?.map Message.price).getD 0,
    Close := (r.2.getLast?.map Message.price).getD 0,
    Max := runMax (r.2.map Message.price),
    Min := runMin (r.2.map Message.price),
    Trades := r.2.length,
    Start := r.1,
    Duration := d }

/-- One step of consecutive-duplicate elimination on a key list,
mirroring `addRun` on keys alone. -/
def dedupStep (acc : List ℕ) (k : ℕ) : List ℕ :=
  if acc.getLast? = some k then acc else acc ++ [k]

/-- The key list with consecutive duplicates removed, in order of first
occurrence. -/
def dedupKeys (l : List ℕ) : List ℕ := l.foldl dedupStep []

/-- Whether a list of naturals is strictly increasing. -/
def strictIncr : List ℕ → Bool
  | [] => true
  | [_] => true
  | a :: b :: l => decide (a < b) && strictIncr (b :: l)

/-- Whether a list of naturals is non-decreasing, starting no lower than
an optional floor. -/
def monoFrom : Option ℕ → List ℕ → Bool
  | _, [] => true
  | none, k :: l => monoFrom (some k) l
  | some c, k :: l => decide (c ≤ k) && monoFrom (some k) l

/-- Whether the timestamps of a message sequence are non-decreasing. -/
def timesMonotone : List Message → Bool
  | [] => true
  | [_] => true
  | a :: b :: l => decide (a.time ≤ b.time) && timesMonotone (b :: l)

/-! ### Helper lemmas -/

theorem updateLast_concat {α : Type} (f : α → α) (l : List α) (x : α) :
    updateLast f (l ++ [x]) = l ++ [f x] := by
  induction l with
  | nil => rfl
  | cons a l ih =>
    cases l with
    | nil => rfl
    | cons b l' =>
      show a :: updateLast f ((b :: l') ++ [x]) = a :: ((b :: l') ++ [f x])
      rw [ih]

theorem newBucket_Start (p : ℚ) (t d : ℕ) : (newBucket p t d).Start = t := rfl

theorem mkBucket_Start (d : ℕ) (r : ℕ × List Message) : (mkBucket d r).Start = r.1 := rfl

/-- `processMessage` on an empty bucket list: one fresh bucket, closed
and touched. -/
theorem processMessage_nil (d : ℕ) (m : Message) (trades : List Message) :
    processMessage d m trades [] =
      (trades ++ [m],
       [touchBucket m.price (setClose m.price (newBucket m.price (truncate m.time d) d))]) := by
  simp [processMessage, updateLast, newBucket_Start]

/-- `processMessage` on a non-empty bucket list: route into the last
bucket when the window matches, otherwise append a fresh bucket; in both
cases touch the last bucket. -/
theorem processMessage_concat (d : ℕ) (m : Message) (trades : List Message)
    (l : List Bucket) (b : Bucket) :
    processMessage d m trades (l ++ [b]) =
      (trades ++ [m],
       if b.Start = truncate m.time d then
         l ++ [touchBucket m.price (setClose m.price b)]
       else
         (l ++ [b]) ++ [touchBucket m.price (newBucket m.price (truncate m.time d) d)]) := by
  have hne : ¬(l ++ [b] = []) := by simp
  by_cases hb : b.Start = truncate m.time d
  · simp only [processMessage, if_neg hne, List.getLast?_concat, if_pos hb,
      updateLast_concat]
  · simp only [processMessage, if_neg hne, List.getLast?_concat, if_neg hb]
    rw [show l ++ [b] ++ [newBucket m.price (truncate m.time d) d] =
          (l ++ [b]) ++ [newBucket m.price (truncate m.time d) d] from rfl,
        updateLast_concat]

theorem getLastPrice_concat (l : List Message) (m : Message) :
    ((l ++ [m]).getLast?.map Message.price).getD 0 = m.price := by
  rw [List.getLast?_concat]
  rfl

theorem headPrice_concat (l : List Message) (m : Message) (h : l ≠ []) :
    ((l ++ [m]).head?.map Message.price).getD 0 = (l.head?.map Message.price).getD 0 := by
  obtain ⟨a, t, rfl⟩ := List.exists_cons_of_ne_nil h
  rfl

/-- Touching a fresh bucket produces exactly the bucket of a singleton
run. -/
theorem touch_newBucket (d : ℕ) (m : Message) :
    touchBucket m.price (newBucket m.price (truncate m.time d) d) =
      mkBucket d (truncate m.time d, [m]) := by
  simp [touchBucket, newBucket, mkBucket]

/-- Closing and touching the bucket of a run extends the run by one
message. -/
theorem touch_mkBucket (d : ℕ) (m : Message) (k : ℕ) (run : List Message)
    (hr : run ≠ []) :
    touchBucket m.price (setClose m.price (mkBucket d (k, run))) =
      mkBucket d (k, run ++ [m]) := by
  simp only [touchBucket, setClose, mkBucket, List.foldl_append, List.foldl_cons,
    List.foldl_nil, List.length_append, List.length_cons, List.length_nil,
    getLastPrice_concat, headPrice_concat run m hr]

theorem addRun_ne_nil (d : ℕ) (m : Message) (rs : List (ℕ × List Message))
    (h : ∀ r ∈ rs, r.2 ≠ []) : ∀ r ∈ addRun d m rs, r.2 ≠ [] := by
  rcases List.eq_nil_or_concat rs with rfl | ⟨init, r, rfl⟩
  · simp [addRun]
  · rw [List.concat_eq_append] at *
    by_cases hk : r.1 = truncate m.time d
    · simp only [addRun, List.getLast?_concat, if_pos hk]
      rw [updateLast_concat]
      intro x hx
      rcases List.mem_append.1 hx with h1 | h2
      · exact h x (List.mem_append.2 (Or.inl h1))
      · simp only [List.mem_singleton] at h2
        subst h2
        simp
    · simp only [addRun, List.getLast?_concat, if_neg hk]
      intro x hx
      rcases List.mem_append.1 hx with h1 | h2
      · exact h x h1
      · simp only [List.mem_singleton] at h2
        subst h2
        simp

theorem processMessage_runs (d : ℕ) (m : Message) (trades : List Message)
    (rs : List (ℕ × List Message)) (h : ∀ r ∈ rs, r.2 ≠ []) :
    processMessage d m trades (rs.map (mkBucket d)) =
      (trades ++ [m], (addRun d m rs).map (mkBucket d)) := by
  rcases List.eq_nil_or_concat rs with rfl | ⟨init, r, rfl⟩
  · rw [List.map_nil, processMessage_nil]
    have hc : setClose m.price (newBucket m.price (truncate m.time d) d) =
        newBucket m.price (truncate m.time d) d := rfl
    rw [hc, touch_newBucket]
    rfl
  · rw [List.concat_eq_append] at *
    have hr : r.2 ≠ [] := h r (List.mem_append.2 (Or.inr (List.mem_singleton.2 rfl)))
    rw [List.map_append, List.map_singleton, processMessage_concat, mkBucket_Start]
    by_cases hk : r.1 = truncate m.time d
    · rw [if_pos hk]
      have : (mkBucket d r) = mkBucket d (r.1, r.2) := by rfl
      rw [this, touch_mkBucket d m r.1 r.2 hr]
      simp only [addRun, List.getLast?_concat, if_pos hk]
      rw [updateLast_concat, List.map_append, List.map_singleton]
    · rw [if_neg hk, touch_newBucket]
      simp only [addRun, List.getLast?_concat, if_neg hk]
      rw [List.map_append, List.map_append, List.map_singleton, List.map_singleton]

theorem ingest_go (d : ℕ) (msgs : List Message) : ∀ (trades : List Message)
    (rs : List (ℕ × List Message)), (∀ r ∈ rs, r.2 ≠ []) →
    msgs.foldl (fun st m => processMessage d m st.1 st.2) (trades, rs.map (mkBucket d)) =
      (trades ++ msgs, (msgs.foldl (fun a m => addRun d m a) rs).map (mkBucket d)) := by
  induction msgs with
  | nil => intro trades rs _; simp
  | cons m ms ih =>
    intro trades rs h
    simp only [List.foldl_cons]
    rw [processMessage_runs d m trades rs h]
    rw [ih (trades ++ [m]) (addRun d m rs) (addRun_ne_nil d m rs h)]
    simp

/-- Master lemma: the aggregator state after ingesting a message
sequence is the full trade history paired with one bucket per run of
consecutive same-window messages. -/
theorem ingest_eq_runs (d : ℕ) (msgs : List Message) :
    ingest d msgs = (msgs, (runs d msgs).map (mkBucket d)) := by
  have h := ingest_go d msgs [] [] (by intro r hr; cases hr)
  simpa [ingest, runs] using h

theorem updateLast_map_fst (m : Message) (l : List (ℕ × List Message)) :
    (updateLast (fun p => (p.1, p.2 ++ [m])) l).map Prod.fst = l.map Prod.fst := by
  induction l with
  | nil => rfl
  | cons a l ih =>
    cases l with
    | nil => rfl
    | cons b l' =>
      show a.1 :: (updateLast (fun p => (p.1, p.2 ++ [m])) (b :: l')).map Prod.fst =
        a.1 :: (b :: l').map Prod.fst
      rw [ih]

theorem addRun_map_fst (d : ℕ) (m : Message) (rs : List (ℕ × List Message)) :
    (addRun d m rs).map Prod.fst = dedupStep (rs.map Prod.fst) (truncate m.time d) := by
  rcases List.eq_nil_or_concat rs with rfl | ⟨init, r, rfl⟩
  · rfl
  · rw [List.concat_eq_append]
    by_cases hk : r.1 = truncate m.time d
    · simp only [addRun, List.getLast?_concat, if_pos hk, updateLast_concat]
      rw [List.map_append, List.map_append]
      simp [dedupStep, List.getLast?_concat, hk]
    · simp only [addRun, List.getLast?_concat, if_neg hk]
      simp [dedupStep, List.getLast?_concat, hk]

theorem foldl_addRun_map_fst (d : ℕ) (msgs : List Message) :
    ∀ rs : List (ℕ × List Message),
    (msgs.foldl (fun a m => addRun d m a) rs).map Prod.fst =
      msgs.foldl (fun a m => dedupStep a (truncate m.time d)) (rs.map Prod.fst) := by
  induction msgs with
  | nil => intro rs; rfl
  | cons m ms ih =>
    intro rs
    simp only [List.foldl_cons]
    rw [ih (addRun d m rs), addRun_map_fst]

/-- The window starts of the run decomposition are the truncated
timestamps with consecutive duplicates removed. -/
theorem runs_map_fst (d : ℕ) (msgs : List Message) :
    (runs d msgs).map Prod.fst = dedupKeys (msgs.map (fun m => truncate m.time d)) := by
  rw [runs, foldl_addRun_map_fst, dedupKeys, List.foldl_map]
  rfl

theorem strictIncr_concat (k : ℕ) : ∀ acc : List ℕ, strictIncr acc = true →
    (∀ c, acc.getLast? = some c → c < k) → strictIncr (acc ++ [k]) = true
  | [], _, _ => rfl
  | [a], _, hlt => by
    simp [strictIncr, hlt a rfl]
  | a :: b :: l, h, hlt => by
    simp only [strictIncr, Bool.and_eq_true, decide_eq_true_eq] at h
    have tail := strictIncr_concat k (b :: l) h.2 (by
      intro c hc
      exact hlt c (by rw [List.getLast?_cons_cons]; exact hc))
    have tail' : strictIncr (b :: (l ++ [k])) = true := by
      simpa [List.cons_append] using tail
    show (decide (a < b) && strictIncr (b :: (l ++ [k]))) = true
    simp [h.1, tail']

theorem dedup_go (l : List ℕ) : ∀ acc : List ℕ, strictIncr acc = true →
    monoFrom acc.getLast? l = true →
    strictIncr (l.foldl dedupStep acc) = true ∧
    (∀ x, x ∈ l.foldl dedupStep acc ↔ x ∈ acc ∨ x ∈ l) ∧
    (l.foldl dedupStep acc).getLast? = (acc ++ l).getLast? := by
  induction l with
  | nil =>
    intro acc h1 _
    refine ⟨h1, fun x => by simp, by simp⟩
  | cons k ks ih =>
    intro acc h1 h2
    by_cases hlast : acc.getLast? = some k
    · have hstep : dedupStep acc k = acc := if_pos hlast
      have h2' : monoFrom acc.getLast? ks = true := by
        rw [hlast] at h2 ⊢
        simp only [monoFrom, Bool.and_eq_true, decide_eq_true_eq] at h2
        exact h2.2
      have := ih acc h1 h2'
      rw [List.foldl_cons, hstep]
      refine ⟨this.1, fun x => ?_, ?_⟩
      · rw [(this.2.1 x)]
        constructor
        · rintro (hx | hx)
          · exact Or.inl hx
          · exact Or.inr (List.mem_cons_of_mem _ hx)
        · rintro (hx | hx)
          · exact Or.inl hx
          · rcases List.mem_cons.1 hx with rfl | hx'
            · exact Or.inl (List.mem_of_mem_getLast? (by rw [hlast]; rfl))
            · exact Or.inr hx'
      · rw [this.2.2, List.getLast?_append, List.getLast?_append]
        cases ks with
        | nil => simp [hlast]
        | cons a ks' => rw [List.getLast?_cons_cons]
    · have hstep : dedupStep acc k = acc ++ [k] := if_neg hlast
      have hlt : ∀ c, acc.getLast? = some c → c < k := by
        intro c hc
        rw [hc] at h2 hlast
        simp only [monoFrom, Bool.and_eq_true, decide_eq_true_eq] at h2
        exact lt_of_le_of_ne h2.1 (fun hck => hlast (by rw [hck]))
      have h1' : strictIncr (acc ++ [k]) = true := strictIncr_concat k acc h1 hlt
      have h2' : monoFrom (acc ++ [k]).getLast? ks = true := by
        rw [List.getLast?_concat]
        cases hc : acc.getLast? with
        | none =>
          rw [hc] at h2
          simpa [monoFrom] using h2
        | some c =>
          rw [hc] at h2
          simp only [monoFrom, Bool.and_eq_true, decide_eq_true_eq] at h2
          exact h2.2
      have := ih (acc ++ [k]) h1' h2'
      rw [List.foldl_cons, hstep]
      refine ⟨this.1, fun x => ?_, ?_⟩
      · rw [(this.2.1 x)]
        simp only [List.mem_append, List.mem_singleton, List.mem_cons]
        tauto
      · rw [this.2.2, List.append_assoc, List.singleton_append]

theorem strictIncr_pairwise : ∀ l : List ℕ, strictIncr l = true → l.Pairwise (· < ·)
  | [], _ => List.Pairwise.nil
  | [_], _ => by simp
  | a :: b :: l, h => by
    simp only [strictIncr, Bool.and_eq_true, decide_eq_true_eq] at h
    have tail := strictIncr_pairwise (b :: l) h.2
    refine List.Pairwise.cons ?_ tail
    intro x hx
    rcases List.mem_cons.1 hx with rfl | hx'
    · exact h.1
    · exact lt_trans h.1 ((List.pairwise_cons.1 tail).1 x hx')

theorem strictIncr_nodup (l : List ℕ) (h : strictIncr l = true) : l.Nodup :=
  (strictIncr_pairwise l h).imp ne_of_lt

theorem truncate_mono (d : ℕ) {a b : ℕ} (h : a ≤ b) : truncate a d ≤ truncate b d := by
  unfold truncate
  split
  · exact h
  · exact Nat.mul_le_mul_right d (Nat.div_le_div_right h)

theorem timesMonotone_keys_go (d : ℕ) : ∀ (msgs : List Message) (m0 : Message),
    timesMonotone (m0 :: msgs) = true →
    monoFrom (some (truncate m0.time d)) (msgs.map (fun m => truncate m.time d)) = true
  | [], _, _ => rfl
  | m1 :: ms, m0, h => by
    simp only [timesMonotone, Bool.and_eq_true, decide_eq_true_eq] at h
    simp only [List.map_cons, monoFrom, Bool.and_eq_true, decide_eq_true_eq]
    exact ⟨truncate_mono d h.1, timesMonotone_keys_go d ms m1 h.2⟩

theorem timesMonotone_keys (d : ℕ) (msgs : List Message)
    (h : timesMonotone msgs = true) :
    monoFrom none (msgs.map (fun m => truncate m.time d)) = true := by
  cases msgs with
  | nil => rfl
  | cons m0 ms =>
    rw [List.map_cons]
    exact timesMonotone_keys_go d ms m0 h

theorem runs_ne_nil (d : ℕ) (msgs : List Message) :
    ∀ r ∈ runs d msgs, r.2 ≠ [] := by
  have : ∀ (l : List Message) (rs : List (ℕ × List Message)), (∀ r ∈ rs, r.2 ≠ []) →
      ∀ r ∈ l.foldl (fun a m => addRun d m a) rs, r.2 ≠ [] := by
    intro l
    induction l with
    | nil => intro rs h; simpa using h
    | cons m ms ih =>
      intro rs h
      simp only [List.foldl_cons]
      exact ih (addRun d m rs) (addRun_ne_nil d m rs h)
  exact this msgs [] (by intro r hr; cases hr)

theorem foldl_min_le_init (a : ℚ) (l : List ℚ) : l.foldl min a ≤ a := by
  induction l generalizing a with
  | nil => exact le_refl a
  | cons p ps ih => exact le_trans (ih (min a p)) (min_le_left a p)

theorem foldl_min_le_mem (a : ℚ) (l : List ℚ) : ∀ x ∈ l, l.foldl min a ≤ x := by
  induction l generalizing a with
  | nil => intro x hx; cases hx
  | cons p ps ih =>
    intro x hx
    rcases List.mem_cons.1 hx with rfl | hx'
    · exact le_trans (foldl_min_le_init (min a x) ps) (min_le_right a x)
    · exact ih (min a p) x hx'

theorem foldl_min_mem (a : ℚ) (l : List ℚ) : l.foldl min a = a ∨ l.foldl min a ∈ l := by
  induction l generalizing a with
  | nil => exact Or.inl rfl
  | cons p ps ih =>
    rcases ih (min a p) with h | h
    · rcases min_choice a p with hm | hm
      · exact Or.inl (by rw [List.foldl_cons, h, hm])
      · exact Or.inr (by rw [List.foldl_cons, h, hm]; exact List.mem_cons_self p ps)
    · exact Or.inr (List.mem_cons_of_mem p h)

theorem foldl_max_le_init (a : ℚ) (l : List ℚ) : a ≤ l.foldl max a := by
  induction l generalizing a with
  | nil => exact le_refl a
  | cons p ps ih => exact le_trans (le_max_left a p) (ih (max a p))

theorem foldl_max_ge_mem (a : ℚ) (l : List ℚ) : ∀ x ∈ l, x ≤ l.foldl max a := by
  induction l generalizing a with
  | nil => intro x hx; cases hx
  | cons p ps ih =>
    intro x hx
    rcases List.mem_cons.1 hx with rfl | hx'
    · exact le_trans (le_max_right a x) (foldl_max_le_init (max a x) ps)
    · exact ih (max a p) x hx'

theorem foldl_max_mem (a : ℚ) (l : List ℚ) : l.foldl max a = a ∨ l.foldl max a ∈ l := by
  induction l generalizing a with
  | nil => exact Or.inl rfl
  | cons p ps ih =>
    rcases ih (max a p) with h | h
    · rcases max_choice a p with hm | hm
      · exact Or.inl (by rw [List.foldl_cons, h, hm])
      · exact Or.inr (by rw [List.foldl_cons, h, hm]; exact List.mem_cons_self p ps)
    · exact Or.inr (List.mem_cons_of_mem p h)

/-- A sentinel-seeded min fold equals the genuine minimum as soon as the
sentinel is at least every element of a non-empty list. -/
theorem foldl_min_eq_runMin (a : ℚ) (l : List ℚ) (hne : l ≠ [])
    (h : ∀ x ∈ l, x ≤ a) : l.foldl min a = runMin l := by
  obtain ⟨p, ps, rfl⟩ := List.exists_cons_of_ne_nil hne
  show (p :: ps).foldl min a = ps.foldl min p
  rw [List.foldl_cons, min_eq_right (h p (List.mem_cons_self p ps))]

/-- A sentinel-seeded max fold equals the genuine maximum as soon as the
sentinel is at most every element of a non-empty list. -/
theorem foldl_max_eq_runMax (a : ℚ) (l : List ℚ) (hne : l ≠ [])
    (h : ∀ x ∈ l, a ≤ x) : l.foldl max a = runMax l := by
  obtain ⟨p, ps, rfl⟩ := List.exists_cons_of_ne_nil hne
  show (p :: ps).foldl max a = ps.foldl max p
  rw [List.foldl_cons, max_eq_right (h p (List.mem_cons_self p ps))]

theorem runMin_mem (l : List ℚ) (hne : l ≠ []) : runMin l ∈ l := by
  obtain ⟨p, ps, rfl⟩ := List.exists_cons_of_ne_nil hne
  rcases foldl_min_mem p ps with h | h
  · rw [runMin, h]; exact List.mem_cons_self p ps
  · exact List.mem_cons_of_mem p h

theorem runMin_le (l : List ℚ) : ∀ x ∈ l, runMin l ≤ x := by
  intro x hx
  match l, hx with
  | p :: ps, hx =>
    rcases List.mem_cons.1 hx with rfl | hx'
    · exact foldl_min_le_init x ps
    · exact foldl_min_le_mem p ps x hx'

theorem runMax_mem (l : List ℚ) (hne : l ≠ []) : runMax l ∈ l := by
  obtain ⟨p, ps, rfl⟩ := List.exists_cons_of_ne_nil hne
  rcases foldl_max_mem p ps with h | h
  · rw [runMax, h]; exact List.mem_cons_self p ps
  · exact List.mem_cons_of_mem p h

theorem le_runMax (l : List ℚ) : ∀ x ∈ l, x ≤ runMax l := by
  intro x hx
  match l, hx with
  | p :: ps, hx =>
    rcases List.mem_cons.1 hx with rfl | hx'
    · exact foldl_max_le_init x ps
    · exact foldl_max_ge_mem p ps x hx'

/-- The paired fold of `DrawCandles` splits into a min fold over the
`Min` fields and a max fold over the `Max` fields. -/
theorem candleRawBounds_split (bs : List Bucket) :
    candleRawBounds bs =
      ((bs.map Bucket.Min).foldl min maxFloat32, (bs.map Bucket.Max).foldl max 0) := by
  rw [candleRawBounds]
  have : ∀ (l : List Bucket) (p : ℚ × ℚ),
      l.foldl (fun p b => (min p.1 b.Min, max p.2 b.Max)) p =
        ((l.map Bucket.Min).foldl min p.1, (l.map Bucket.Max).foldl max p.2) := by
    intro l
    induction l with
    | nil => intro p; rfl
    | cons b l ih =>
      intro p
      rw [List.foldl_cons, List.map_cons, List.map_cons, List.foldl_cons, List.foldl_cons]
      exact ih (min p.1 b.Min, max p.2 b.Max)
  exact this bs (maxFloat32, 0)

theorem volumeMax_eq (bs : List Bucket) :
    volumeMax bs = (bs.map (fun b => (b.Trades : ℚ))).foldl max 0 := by
  rw [volumeMax, List.foldl_map]

/-- Under the domain constraint that every routed price is non-negative
and at most the `math.MaxFloat32` sentinel, the code's sentinel-seeded
bucket agrees with the spec's bucket. -/
theorem mkBucket_eq_specBucket (d : ℕ) (r : ℕ × List Message) (hne : r.2 ≠ [])
    (h : ∀ m ∈ r.2, 0 ≤ m.price ∧ m.price ≤ maxFloat32) :
    mkBucket d r = specBucket d r := by
  have hne' : r.2.map Message.price ≠ [] := by simpa using hne
  have hmin : r.2.foldl (fun a m => min a m.price) maxFloat32 =
      runMin (r.2.map Message.price) := by
    rw [← List.foldl_map]
    refine foldl_min_eq_runMin maxFloat32 _ hne' ?_
    intro x hx
    obtain ⟨m, hm, rfl⟩ := List.mem_map.1 hx
    exact (h m hm).2
  have hmax : r.2.foldl (fun a m => max a m.price) 0 =
      runMax (r.2.map Message.price) := by
    rw [← List.foldl_map]
    refine foldl_max_eq_runMax 0 _ hne' ?_
    intro x hx
    obtain ⟨m, hm, rfl⟩ := List.mem_map.1 hx
    exact (h m hm).1
  simp only [mkBucket, specBucket]
  rw [hmin, hmax]

/-- The window starts of the buckets after ingestion are the truncated
timestamps with consecutive duplicates removed. -/
theorem starts_eq_dedupKeys (d : ℕ) (msgs : List Message) :
    (ingest d msgs).2.map Bucket.Start =
      dedupKeys (msgs.map (fun m => truncate m.time d)) := by
  rw [ingest_eq_runs]
  show ((runs d msgs).map (mkBucket d)).map Bucket.Start = _
  rw [List.map_map]
  have hcomp : (Bucket.Start ∘ mkBucket d) = Prod.fst := by
    funext r
    rfl
  rw [hcomp, runs_map_fst]

theorem dedupKeys_strictIncr (l : List ℕ) (h : monoFrom none l = true) :
    strictIncr (dedupKeys l) = true :=
  (dedup_go l [] rfl h).1

theorem dedupKeys_mem (l : List ℕ) (h : monoFrom none l = true) (x : ℕ) :
    x ∈ dedupKeys l ↔ x ∈ l := by
  have := (dedup_go l [] rfl h).2.1 x
  simpa using this

theorem dedupKeys_length (l : List ℕ) (h : monoFrom none l = true) :
    (dedupKeys l).length = l.toFinset.card := by
  have hnd : (dedupKeys l).Nodup := strictIncr_nodup _ (dedupKeys_strictIncr l h)
  have hfs : (dedupKeys l).toFinset = l.toFinset := by
    apply Finset.ext
    intro a
    rw [List.mem_toFinset, List.mem_toFinset]
    exact dedupKeys_mem l h a
  rw [← hfs, List.toFinset_card_of_nodup hnd]

theorem timesMonotone_append_left : ∀ (l1 l2 : List Message),
    timesMonotone (l1 ++ l2) = true → timesMonotone l1 = true
  | [], _, _ => rfl
  | [_], _, _ => rfl
  | a :: b :: l, l2, h => by
    simp only [List.cons_append, timesMonotone, Bool.and_eq_true,
      decide_eq_true_eq] at h ⊢
    exact ⟨h.1, timesMonotone_append_left (b :: l) l2 (by
      simpa [timesMonotone, List.cons_append] using h.2)⟩

theorem ingest_starts_strictIncr (d : ℕ) (msgs : List Message)
    (h : timesMonotone msgs = true) :
    strictIncr ((ingest d msgs).2.map Bucket.Start) = true := by
  rw [starts_eq_dedupKeys]
  exact dedupKeys_strictIncr _ (timesMonotone_keys d msgs h)

/-- Every bucket ever produced by ingestion holds at least one trade. -/
theorem ingest_trades_pos (d : ℕ) (msgs : List Message) :
    ∀ b ∈ (ingest d msgs).2, 1 ≤ b.Trades := by
  intro b hb
  rw [ingest_eq_runs] at hb
  obtain ⟨r, hr, rfl⟩ := List.mem_map.1 hb
  have hne := runs_ne_nil d msgs r hr
  have hpos : 0 < r.2.length := List.length_pos.2 hne
  simpa [mkBucket] using hpos

theorem le_volumeMax (bs : List Bucket) (b : Bucket) (hb : b ∈ bs) :
    (b.Trades : ℚ) ≤ volumeMax bs := by
  rw [volumeMax_eq]
  exact foldl_max_ge_mem 0 _ _ (List.mem_map_of_mem _ hb)

theorem truncate_pos (t d : ℕ) (h : 0 < d) : truncate t d = t / d * d := by
  rw [truncate, if_neg (Nat.pos_iff_ne_zero.1 h)]

theorem addRun_mem_cases (d : ℕ) (m : Message) (rs : List (ℕ × List Message))
    (r : ℕ × List Message) (hr : r ∈ addRun d m rs) :
    r ∈ rs ∨ (∃ r0, r0 ∈ rs ∧ r = (r0.1, r0.2 ++ [m])) ∨
      r = (truncate m.time d, [m]) := by
  rcases List.eq_nil_or_concat rs with rfl | ⟨init, r0, rfl⟩
  · have hnil : addRun d m [] = [(truncate m.time d, [m])] := rfl
    rw [hnil] at hr
    exact Or.inr (Or.inr (List.mem_singleton.1 hr))
  · rw [List.concat_eq_append] at *
    by_cases hk : r0.1 = truncate m.time d
    · simp only [addRun, List.getLast?_concat, if_pos hk, updateLast_concat] at hr
      rcases List.mem_append.1 hr with h1 | h2
      · exact Or.inl (List.mem_append.2 (Or.inl h1))
      · exact Or.inr (Or.inl ⟨r0,
          List.mem_append.2 (Or.inr (List.mem_singleton.2 rfl)),
          List.mem_singleton.1 h2⟩)
    · simp only [addRun, List.getLast?_concat, if_neg hk] at hr
      rcases List.mem_append.1 hr with h1 | h2
      · exact Or.inl h1
      · exact Or.inr (Or.inr (List.mem_singleton.1 h2))

/-- Every message stored in a run of the run decomposition is one of the
ingested messages. -/
theorem runs_mem_msgs (d : ℕ) (msgs : List Message) :
    ∀ r ∈ runs d msgs, ∀ x ∈ r.2, x ∈ msgs := by
  have aux : ∀ (l : List Message) (rs : List (ℕ × List Message)) (S : Message → Prop),
      (∀ r ∈ rs, ∀ x ∈ r.2, S x) → (∀ x ∈ l, S x) →
      ∀ r ∈ l.foldl (fun a x => addRun d x a) rs, ∀ x ∈ r.2, S x := by
    intro l
    induction l with
    | nil =>
      intro rs S h _ r hr
      exact h r hr
    | cons y ms ih =>
      intro rs S h hl
      simp only [List.foldl_cons]
      apply ih (addRun d y rs) S
      · intro r hr x hx
        rcases addRun_mem_cases d y rs r hr with h1 | ⟨r0, hr0, rfl⟩ | rfl
        · exact h r h1 x hx
        · rcases List.mem_append.1 hx with h2 | h2
          · exact h r0 hr0 x h2
          · rw [List.mem_singleton.1 h2]
            exact hl y (List.mem_cons_self y ms)
        · rw [List.mem_singleton.1 hx]
          exact hl y (List.mem_cons_self y ms)
      · intro x hx
        exact hl x (List.mem_cons_of_mem _ hx)
  intro r hr x hx
  exact aux msgs [] (· ∈ msgs) (by intro r hr; cases hr) (fun _ hm => hm) r hr x hx

/-- One `processMessage` step never removes or reorders buckets: all but
the last input bucket survive unchanged in place, and at most one bucket
is appended. -/
theorem processMessage_step_shape (d : ℕ) (m : Message) (trades : List Message)
    (bs : List Bucket) :
    (processMessage d m trades bs).2.take (bs.length - 1) = bs.take (bs.length - 1) ∧
    bs.length ≤ (processMessage d m trades bs).2.length ∧
    (processMessage d m trades bs).2.length ≤ bs.length + 1 := by
  rcases List.eq_nil_or_concat bs with rfl | ⟨l, b, rfl⟩
  · rw [processMessage_nil]
    simp
  · rw [List.concat_eq_append, processMessage_concat]
    by_cases hb : b.Start = truncate m.time d
    · rw [if_pos hb]
      have hlen : (l ++ [b]).length - 1 = l.length := by simp
      refine ⟨?_, by simp, by simp⟩
      rw [hlen, List.take_left, List.take_left]
    · rw [if_neg hb]
      have hlen : (l ++ [b]).length - 1 = l.length := by simp
      refine ⟨?_, by simp, by simp⟩
      rw [hlen, List.take_append_of_le_length (by simp), List.take_left]

/-- A reachable aggregator state with `volumeMax = 0` has no buckets at
all. -/
theorem volumeMax_zero_empty (d : ℕ) (msgs : List Message)
    (h : volumeMax (ingest d msgs).2 = 0) : (ingest d msgs).2 = [] := by
  by_contra hne
  obtain ⟨b, hb⟩ := List.exists_mem_of_ne_nil _ hne
  have h1 := ingest_trades_pos d msgs b hb
  have h2 := le_volumeMax _ b hb
  rw [h] at h2
  have h3 : (1 : ℚ) ≤ (b.Trades : ℚ) := by exact_mod_cast h1
  linarith

/-! ### Claim theorems -/

/-- Claim C1, counterexample: a single trade whose (positive) price
`2^129` exceeds the `math.MaxFloat32` sentinel produces a bucket whose
`Min` is the sentinel, not the running minimum of its routed prices, so
the per-bucket OHLC property fails for unrestricted price sequences. -/
theorem C1_ohlc_counterexample :
    (ingest 900 [⟨"buy", 2 ^ 129, 0⟩]).2 ≠
      (runs 900 [⟨"buy", 2 ^ 129, 0⟩]).map (specBucket 900) := by
  intro heq
  have h := congrArg (List.map Bucket.Min) heq
  norm_num [ingest, processMessage, truncate, newBucket, setClose, touchBucket,
    updateLast, runs, addRun, specBucket, runMin, maxFloat32, min_def, max_def] at h

/-- Claim C1 (amended): after every ingestion step (each intermediate
state being the ingestion of a prefix of the trade sequence), provided
every price is positive and at most the `math.MaxFloat32` sentinel, the
bucket list is exactly one spec bucket per run of routed trades: each
bucket's open/close are the first/most recent routed price and its
min/max are the genuine running minimum/maximum of the routed prices;
in particular the trades at prices [100, 102, 98, 101] in one window
yield the single bucket open 100, close 101, max 102, min 98, four
trades. -/
theorem C1_ohlc_per_bucket (d : ℕ) (msgs pre rest : List Message)
    (hsplit : msgs = pre ++ rest)
    (hp : ∀ m ∈ msgs, 0 < m.price ∧ m.price ≤ maxFloat32) :
    ((ingest d pre).2 = (runs d pre).map (specBucket d) ∧
     ∀ b ∈ (ingest d pre).2, ∃ r ∈ runs d pre, r.2 ≠ [] ∧ b = specBucket d r ∧
       b.Min ∈ r.2.map Message.price ∧ (∀ p ∈ r.2.map Message.price, b.Min ≤ p) ∧
       b.Max ∈ r.2.map Message.price ∧ (∀ p ∈ r.2.map Message.price, p ≤ b.Max)) ∧
    (ingest 900 [⟨"buy", 100, 10⟩, ⟨"buy", 102, 20⟩, ⟨"buy", 98, 30⟩, ⟨"buy", 101, 40⟩]).2 =
      [{ Open := 100, Close := 101, Max := 102, Min := 98, Trades := 4, Start := 0, Duration := 900 }] := by
  have hpre : ∀ m ∈ pre, 0 ≤ m.price ∧ m.price ≤ maxFloat32 := by
    intro m hm
    have h := hp m (by rw [hsplit]; exact List.mem_append.2 (Or.inl hm))
    exact ⟨le_of_lt h.1, h.2⟩
  have hmain : (ingest d pre).2 = (runs d pre).map (specBucket d) := by
    rw [ingest_eq_runs]
    show (runs d pre).map (mkBucket d) = (runs d pre).map (specBucket d)
    apply List.map_congr_left
    intro r hr
    exact mkBucket_eq_specBucket d r (runs_ne_nil d pre r hr)
      (fun x hx => hpre x (runs_mem_msgs d pre r hr x hx))
  refine ⟨⟨hmain, ?_⟩, ?_⟩
  · intro b hb
    rw [hmain] at hb
    obtain ⟨r, hr, rfl⟩ := List.mem_map.1 hb
    have hne := runs_ne_nil d pre r hr
    have hne' : r.2.map Message.price ≠ [] := by simpa using hne
    exact ⟨r, hr, hne, rfl, runMin_mem _ hne', runMin_le _, runMax_mem _ hne',
      le_runMax _⟩
  · norm_num [ingest, processMessage, truncate, newBucket, setClose, touchBucket,
      updateLast, maxFloat32, min_def, max_def]

/-- Claim C1, witness: the four-trade scenario instantiates the amended
theorem. -/
theorem C1_ohlc_per_bucket_witness :
    (ingest 900 [⟨"buy", 100, 10⟩, ⟨"buy", 102, 20⟩, ⟨"buy", 98, 30⟩, ⟨"buy", 101, 40⟩]).2 =
      (runs 900 [⟨"buy", 100, 10⟩, ⟨"buy", 102, 20⟩, ⟨"buy", 98, 30⟩, ⟨"buy", 101, 40⟩]).map
        (specBucket 900) :=
  (C1_ohlc_per_bucket 900
    [⟨"buy", 100, 10⟩, ⟨"buy", 102, 20⟩, ⟨"buy", 98, 30⟩, ⟨"buy", 101, 40⟩]
    [⟨"buy", 100, 10⟩, ⟨"buy", 102, 20⟩, ⟨"buy", 98, 30⟩, ⟨"buy", 101, 40⟩] [] (by simp)
    (by
      intro m hm
      fin_cases hm <;> norm_num [maxFloat32])).1.1

/-- Claim C2: for a trade sequence with non-decreasing timestamps and a
positive window, the number of buckets equals the number of distinct
values of `floor(timestamp / windowDuration)` encountered, the bucket
starts are exactly those values in first-occurrence order with no
duplicates, and every bucket's `Start` is
`floor(trade.timestamp / windowDuration) * windowDuration` for some
ingested trade. -/
theorem C2_bucket_count (d : ℕ) (msgs : List Message) (hd : 0 < d)
    (hmono : timesMonotone msgs = true) :
    ((ingest d msgs).2).length = (msgs.map (fun m => m.time / d * d)).toFinset.card ∧
    (ingest d msgs).2.map Bucket.Start = dedupKeys (msgs.map (fun m => m.time / d * d)) ∧
    ((ingest d msgs).2.map Bucket.Start).Nodup ∧
    (∀ b ∈ (ingest d msgs).2, ∃ m ∈ msgs, b.Start = m.time / d * d) := by
  have hkey : (msgs.map fun m => truncate m.time d) =
      msgs.map (fun m => m.time / d * d) := by
    apply List.map_congr_left
    intro m _
    exact truncate_pos m.time d hd
  have hmemo := timesMonotone_keys d msgs hmono
  rw [hkey] at hmemo
  have hstarts := starts_eq_dedupKeys d msgs
  rw [hkey] at hstarts
  have hlen : ((ingest d msgs).2).length =
      ((ingest d msgs).2.map Bucket.Start).length := (List.length_map _ _).symm
  refine ⟨?_, hstarts, ?_, ?_⟩
  · rw [hlen, hstarts, dedupKeys_length _ hmemo]
  · rw [hstarts]
    exact strictIncr_nodup _ (dedupKeys_strictIncr _ hmemo)
  · intro b hb
    have h1 : b.Start ∈ (ingest d msgs).2.map Bucket.Start := List.mem_map_of_mem _ hb
    rw [hstarts] at h1
    have h2 := (dedupKeys_mem _ hmemo _).1 h1
    obtain ⟨m, hm, hkeq⟩ := List.mem_map.1 h2
    exact ⟨m, hm, hkeq.symm⟩

/-- Claim C2, witness: two trades in distinct windows give two buckets
with starts 0 and 60. -/
theorem C2_bucket_count_witness :
    ((ingest 60 [⟨"buy", 5, 10⟩, ⟨"buy", 7, 70⟩]).2).length =
      ([⟨"buy", 5, 10⟩, ⟨"buy", 7, 70⟩].map
        (fun m : Message => m.time / 60 * 60)).toFinset.card :=
  (C2_bucket_count 60 [⟨"buy", 5, 10⟩, ⟨"buy", 7, 70⟩] (by norm_num) (by decide)).1

/-- Claim C3, counterexample: with out-of-order timestamps (60 then 0,
window 60) the bucket starts are [60, 0], so the bucket sequence is not
strictly increasing by `windowStart` without a precondition on
timestamps. -/
theorem C3_strict_counterexample :
    strictIncr ((ingest 60 [⟨"buy", 1, 60⟩, ⟨"buy", 1, 0⟩]).2.map Bucket.Start) =
      false := by
  decide

/-- Claim C3 (amended): under non-decreasing timestamps the bucket
sequence of every intermediate state is strictly increasing by
`windowStart`; and unconditionally, each `processMessage` step keeps all
but the last bucket unchanged in place (append-only, no removal or
reordering, only the last element mutated) and grows the sequence by at
most one bucket. -/
theorem C3_bucket_sequence (d : ℕ) (msgs pre rest : List Message)
    (hsplit : msgs = pre ++ rest) (hmono : timesMonotone msgs = true)
    (m : Message) (trades : List Message) (bs : List Bucket) :
    strictIncr ((ingest d pre).2.map Bucket.Start) = true ∧
    (processMessage d m trades bs).2.take (bs.length - 1) = bs.take (bs.length - 1) ∧
    bs.length ≤ (processMessage d m trades bs).2.length ∧
    (processMessage d m trades bs).2.length ≤ bs.length + 1 := by
  subst hsplit
  exact ⟨ingest_starts_strictIncr d pre (timesMonotone_append_left pre rest hmono),
    processMessage_step_shape d m trades bs⟩

/-- Claim C3, witness. -/
theorem C3_bucket_sequence_witness :
    strictIncr ((ingest 60 [⟨"buy", 5, 10⟩]).2.map Bucket.Start) = true :=
  (C3_bucket_sequence 60 [⟨"buy", 5, 10⟩, ⟨"buy", 7, 70⟩] [⟨"buy", 5, 10⟩]
    [⟨"buy", 7, 70⟩] rfl (by decide) ⟨"buy", 7, 70⟩ [] []).1

/-- Claim C4, counterexample: the bounds `DrawCandles`/`DrawVolume`
actually use are folds over *all* buckets, so with panel height 2 (one
visible bucket) the code's lower bound 0 and volume maximum 5 differ
from the visible-only values 400 and 2: off-screen buckets do affect
the scale. -/
theorem C4_visible_counterexample :
    (candleRawBounds twoBuckets).1 ≠ specVisibleLowerBound 2 twoBuckets ∧
    volumeMax twoBuckets ≠ specVisibleVolumeMax 2 twoBuckets := by
  constructor
  · norm_num [twoBuckets, candleRawBounds, specVisibleLowerBound, visibleBuckets,
      runMin, maxFloat32, min_def, max_def]
  · norm_num [twoBuckets, volumeMax, specVisibleVolumeMax, visibleBuckets, runMax,
      min_def, max_def]

/-- Claim C4 (amended): the scaling bounds are computed over **all**
buckets of the sequence, visible or not: for a non-empty bucket list
whose `Min` fields do not exceed the `math.MaxFloat32` sentinel and
whose `Max` fields are non-negative, the pre-padding lower/upper bounds
are the genuine minimum of all `Min`s and maximum of all `Max`s, and
`volumeMax` is the maximum trade count over all buckets. -/
theorem C4_bounds_over_all (bs : List Bucket) (hne : bs ≠ [])
    (hmin : ∀ b ∈ bs, b.Min ≤ maxFloat32) (hmax : ∀ b ∈ bs, 0 ≤ b.Max) :
    (candleRawBounds bs).1 = runMin (bs.map Bucket.Min) ∧
    (candleRawBounds bs).2 = runMax (bs.map Bucket.Max) ∧
    volumeMax bs = runMax (bs.map (fun b => (b.Trades : ℚ))) := by
  have hne1 : bs.map Bucket.Min ≠ [] := by simpa using hne
  have hne2 : bs.map Bucket.Max ≠ [] := by simpa using hne
  have hne3 : bs.map (fun b => (b.Trades : ℚ)) ≠ [] := by simpa using hne
  rw [candleRawBounds_split]
  refine ⟨?_, ?_, ?_⟩
  · refine foldl_min_eq_runMin _ _ hne1 ?_
    intro x hx
    obtain ⟨b, hb, rfl⟩ := List.mem_map.1 hx
    exact hmin b hb
  · refine foldl_max_eq_runMax _ _ hne2 ?_
    intro x hx
    obtain ⟨b, hb, rfl⟩ := List.mem_map.1 hx
    exact hmax b hb
  · rw [volumeMax_eq]
    refine foldl_max_eq_runMax _ _ hne3 ?_
    intro x hx
    obtain ⟨b, hb, rfl⟩ := List.mem_map.1 hx
    exact Nat.cast_nonneg b.Trades

/-- Claim C4, witness. -/
theorem C4_bounds_over_all_witness :
    (candleRawBounds twoBuckets).1 = runMin (twoBuckets.map Bucket.Min) :=
  (C4_bounds_over_all twoBuckets (by simp [twoBuckets])
    (by intro b hb; fin_cases hb <;> norm_num [maxFloat32])
    (by intro b hb; fin_cases hb <;> norm_num)).1

/-- Claim C5, counterexample: the failure counter is *not* reset on a
successful read of a handshake artifact (empty `Side`): starting from 3
consecutive failures, reading such a message leaves the counter at 3,
and a subsequent failure after a discarded read at counter 2 sleeps 9
seconds, not 1. -/
theorem C5_reset_counterexample :
    (connectStep 3 (ReadEvent.success ⟨"", 100, 0⟩)).1 ≠ 0 ∧
    (connectStep (connectStep 2 (ReadEvent.success ⟨"", 100, 0⟩)).1
        ReadEvent.failure).2.1 ≠ some 1 := by
  decide

/-- Claim C5 (amended): the failure counter is reset to 0 only on a
successful read of a message with a non-empty side; a successful read of
a handshake artifact (empty side) is discarded before the reset and
leaves the counter unchanged; each read failure increments the counter;
a failure that follows a successful non-discarded read waits exactly 1
second. -/
theorem C5_reset_only_on_valid_read (c : ℕ) (m : Message) :
    (m.side.length ≠ 0 → (connectStep c (ReadEvent.success m)).1 = 0) ∧
    (m.side.length = 0 → (connectStep c (ReadEvent.success m)).1 = c) ∧
    (connectStep c ReadEvent.failure).1 = c + 1 ∧
    (m.side.length ≠ 0 →
      (connectStep (connectStep c (ReadEvent.success m)).1 ReadEvent.failure).2.1 =
        some 1) := by
  refine ⟨?_, ?_, rfl, ?_⟩
  · intro h
    simp [connectStep, h]
  · intro h
    simp [connectStep, h]
  · intro h
    simp [connectStep, h]

/-- Claim C5, witness at a concrete input. -/
theorem C5_reset_only_on_valid_read_witness :
    (connectStep 5 (ReadEvent.success ⟨"buy", 1, 0⟩)).1 = 0 :=
  (C5_reset_only_on_valid_read 5 ⟨"buy", 1, 0⟩).1 (by decide)

/-- Claim C6: starting from a freshly reset counter, the counter after N
consecutive read failures is N, and the sleep performed on the Nth
failure is exactly N² seconds, for every N ≥ 1 (no maximum retry
count). -/
theorem C6_backoff_square (N : ℕ) (h : 1 ≤ N) :
    failCounter N = N ∧
    (connectStep (failCounter (N - 1)) ReadEvent.failure).2.1 = some (N * N) := by
  have hcount : ∀ n, failCounter n = n := by
    intro n
    induction n with
    | zero => rfl
    | succ k ih => simp [failCounter, connectStep, ih]
  refine ⟨hcount N, ?_⟩
  rw [hcount (N - 1)]
  show some ((N - 1 + 1) * (N - 1 + 1)) = some (N * N)
  rw [Nat.sub_add_cancel h]

/-- Claim C6, witness: the third consecutive failure sleeps 9 seconds. -/
theorem C6_backoff_square_witness :
    failCounter 3 = 3 ∧
      (connectStep (failCounter 2) ReadEvent.failure).2.1 = some 9 :=
  C6_backoff_square 3 (by norm_num)

/-- Claim C7: whenever the (possibly padded) price spread is strictly
positive, the candlestick column mapping sends the lower bound exactly
to column 1 and the upper bound exactly to column `panelWidth - 1`. -/
theorem C7_column_exact (lowerBound upperBound w : ℚ)
    (h : 0 < upperBound - lowerBound) :
    column lowerBound upperBound w lowerBound = 1 ∧
    column lowerBound upperBound w upperBound = w - 1 := by
  constructor
  · simp [column]
  · rw [column, div_self (ne_of_gt h)]
    ring

/-- Claim C7, witness at bounds 0/100 and width 10. -/
theorem C7_column_exact_witness :
    column 0 100 10 0 = 1 ∧ column 0 100 10 100 = 9 := by
  have h := C7_column_exact 0 100 10 (by norm_num)
  norm_num at h
  exact h

/-- Claim C8: `DrawCandles` pads the bounds by 50 on each side exactly
when the spread is below 100; the bucket with min 98 / max 198 (spread
exactly 100) is left unpadded, while the bucket with min 100 / max 120
(spread 20) yields the padded bounds (50, 170). -/
theorem C8_padding (lb ub : ℚ) :
    (ub - lb < 100 → padBounds (lb, ub) = (lb - 50, ub + 50)) ∧
    (100 ≤ ub - lb → padBounds (lb, ub) = (lb, ub)) ∧
    candleBounds [{ Open := 98, Close := 198, Max := 198, Min := 98, Trades := 1, Start := 0, Duration := 900 }] = (98, 198) ∧
    candleBounds [{ Open := 100, Close := 120, Max := 120, Min := 100, Trades := 1, Start := 0, Duration := 900 }] = (50, 170) := by
  refine ⟨?_, ?_, ?_, ?_⟩
  · intro h
    simp [padBounds, h]
  · intro h
    simp [padBounds, not_lt.2 h]
  · norm_num [candleBounds, candleRawBounds, padBounds, maxFloat32, min_def, max_def]
  · norm_num [candleBounds, candleRawBounds, padBounds, maxFloat32, min_def, max_def]

/-- Claim C8, witness: padding applied at spread 20, skipped at spread
150. -/
theorem C8_padding_witness :
    padBounds (0, 20) = (0 - 50, 20 + 50) ∧ padBounds (0, 150) = (0, 150) :=
  ⟨(C8_padding 0 20).1 (by norm_num), (C8_padding 0 150).2.1 (by norm_num)⟩

/-- Claim C9: whenever the aggregator state is one produced by
ingestion and the volume panel's `volumeMax` is 0, no bar row is drawn
at all — the bucket sequence is necessarily empty, so the per-row bar
computation (and with it its division) is never reached. -/
theorem C9_volume_zero_no_bars (d w h : ℕ) (msgs : List Message)
    (hv : volumeMax (ingest d msgs).2 = 0) :
    drawVolumeRows w h (ingest d msgs).2 = [] := by
  rw [volumeMax_zero_empty d msgs hv]
  simp [drawVolumeRows, visibleBuckets]

/-- Claim C9, witness: the empty session renders no volume bars. -/
theorem C9_volume_zero_no_bars_witness :
    drawVolumeRows 11 5 (ingest 900 []).2 = [] :=
  C9_volume_zero_no_bars 900 11 5 [] rfl

/-- Claim C10: after any sequence of ingested trades every bucket holds
at least one trade, and consequently a non-empty bucket sequence always
has `volumeMax ≥ 1` — the `volumeMax = 0` degenerate case is reachable
only with no buckets at all. -/
theorem C10_every_bucket_nonempty (d : ℕ) (msgs : List Message) :
    (∀ b ∈ (ingest d msgs).2, 1 ≤ b.Trades) ∧
    ((ingest d msgs).2 ≠ [] → 1 ≤ volumeMax (ingest d msgs).2) := by
  refine ⟨ingest_trades_pos d msgs, ?_⟩
  intro hne
  obtain ⟨b, hb⟩ := List.exists_mem_of_ne_nil _ hne
  have h1 := ingest_trades_pos d msgs b hb
  have h2 := le_volumeMax _ b hb
  have h3 : (1 : ℚ) ≤ (b.Trades : ℚ) := by exact_mod_cast h1
  linarith

/-- Claim C10, witness: one ingested trade gives `volumeMax ≥ 1`. -/
theorem C10_every_bucket_nonempty_witness :
    1 ≤ volumeMax (ingest 900 [⟨"buy", 100, 0⟩]).2 :=
  (C10_every_bucket_nonempty 900 [⟨"buy", 100, 0⟩]).2 (by decide)

end Gct
